import Mathlib

/-!
Verification development for the component-env-graph dependency graph engine.

The engine analyses a component project, builds a node store mapping absolute
file paths to nodes (client-directive flag plus resolved static imports), and
classifies every node as client, server or universal.

JavaScript Map objects are modelled as insertion-ordered association lists
with unique keys; JS Set objects as insertion-ordered duplicate-free lists.
The external parser/resolver collaborator is modelled by attaching its output
(directive flag and resolved import targets) directly to each on-disk file.
The glob exclusion of the full scan is modelled extensionally by its match
predicate, while the matcher object handed to the changed-files refresh is
modelled as the value actually passed there: a RegExp carrying its match
predicate, or a plain function value, on which the test method call of the
refresh loop throws a TypeError.  Escaped exceptions are modelled explicitly
alongside the engine state reached at the throw.  All definitions are
executable.
-/

namespace ComponentEnvGraph

/-- Execution environment classification of a file (types.ts, ComponentType). -/
inductive ComponentType
  | client
  | server
  | universal
deriving DecidableEq, Repr

/-- Node information for each file in the dependency graph (types.ts, FileNode).
The classification field is optional: it is absent when a node is freshly
(re)created and is filled in by a classification pass. -/
structure FileNode where
  filePath : String
  isClient : Bool
  imports : List String
  type? : Option ComponentType := none
deriving DecidableEq, Repr

/-- The graph node store: the JS Map from absolute file path to FileNode. -/
abbrev NodeStore := List (String × FileNode)

/-- Map.get: the value stored at a key, if any. -/
def lookupKey {α : Type} (m : List (String × α)) (k : String) : Option α :=
  (m.find? (fun p => p.1 == k)).map Prod.snd

/-- Map.has: whether the key is present. -/
def hasKey {α : Type} (m : List (String × α)) (k : String) : Bool :=
  (lookupKey m k).isSome

/-- Map.set: overwrite the value at an existing key, else append a new entry. -/
def setKey {α : Type} (m : List (String × α)) (k : String) (v : α) : List (String × α) :=
  if m.any (fun p => p.1 == k) then
    m.map (fun p => if p.1 == k then (k, v) else p)
  else m ++ [(k, v)]

/-- Map.delete: remove every entry stored at the key. -/
def deleteKey {α : Type} (m : List (String × α)) (k : String) : List (String × α) :=
  m.filter (fun p => !(p.1 == k))

/-- Set.add: append an element unless it is already present. -/
def insertSet (s : List String) (x : String) : List String :=
  if s.contains x then s else s ++ [x]

/-- The in-graph successors of a path inside the recursive visit of
getClientReachable (classify.ts): the imports of its node that are themselves
nodes, and nothing when the path has no node. -/
def succsOf (nodes : NodeStore) (fp : String) : List String :=
  match lookupKey nodes fp with
  | none => []
  | some node => node.imports.filter (fun imp => hasKey nodes imp)

/-- The recursive visit procedure inside getClientReachable (classify.ts),
presented as a worklist traversal: a path already in the visited list is
skipped, otherwise it is marked visited and its in-graph imports are pushed.
Well-founded recursion certifies that the traversal terminates on every
store, cyclic import relations included: the measure counts the store keys
not yet visited, and a visited path is never expanded again. -/
def visitAll (nodes : NodeStore) : List String → List String → List String
  | [], visited => visited
  | fp :: stack, visited =>
    if fp ∈ visited then
      visitAll nodes stack visited
    else
      visitAll nodes (succsOf nodes fp ++ stack) (fp :: visited)
  termination_by stack visited =>
    (((nodes.map Prod.fst).filter (fun k => !(visited.contains k))).length, stack.length)
  decreasing_by
  · apply Prod.Lex.right
    simp
  · rename_i hnv
    have hle : ∀ (l : List String) (p q : String → Bool),
        (∀ x ∈ l, q x = true → p x = true) →
        (l.filter q).length ≤ (l.filter p).length := by
      intro l
      induction l with
      | nil => intro p q _; simp
      | cons a t ih =>
        intro p q h
        have ht : ∀ x ∈ t, q x = true → p x = true :=
          fun x hx => h x (List.mem_cons_of_mem a hx)
        by_cases hq : q a = true
        · have hp := h a (List.mem_cons_self a t) hq
          simp [List.filter, hq, hp]
          exact ih p q ht
        · simp at hq
          by_cases hp : p a = true
          · simp [List.filter, hq, hp]
            exact Nat.le_succ_of_le (ih p q ht)
          · simp at hp
            simp [List.filter, hq, hp]
            exact ih p q ht
    by_cases hin : fp ∈ nodes.map Prod.fst
    · apply Prod.Lex.left
      have hlt : ∀ (l : List String) (p q : String → Bool),
          (∀ x ∈ l, q x = true → p x = true) → ∀ a, a ∈ l → p a = true → q a = false →
          (l.filter q).length < (l.filter p).length := by
        intro l
        induction l with
        | nil => intro p q _ a ha; simp at ha
        | cons b t ih =>
          intro p q h a ha hpa hqa
          have ht : ∀ x ∈ t, q x = true → p x = true :=
            fun x hx => h x (List.mem_cons_of_mem b hx)
          rcases List.mem_cons.mp ha with hb | hat
          · subst hb
            simp [List.filter, hqa, hpa]
            exact Nat.lt_succ_of_le (hle t p q ht)
          · by_cases hq : q b = true
            · have hp := h b (List.mem_cons_self b t) hq
              simp [List.filter, hq, hp]
              exact ih p q ht a hat hpa hqa
            · simp at hq
              by_cases hp : p b = true
              · simp [List.filter, hq, hp]
                exact Nat.lt_succ_of_lt (ih p q ht a hat hpa hqa)
              · simp at hp
                simp [List.filter, hq, hp]
                exact ih p q ht a hat hpa hqa
      refine hlt _ _ _ ?_ fp hin ?_ ?_
      · intro x _hx hqx
        simp [List.contains_cons] at hqx ⊢
        exact hqx.2
      · simpa using hnv
      · simp [List.contains_cons]
    · have heq : ((nodes.map Prod.fst).filter (fun k => !((fp :: visited).contains k))) =
          ((nodes.map Prod.fst).filter (fun k => !(visited.contains k))) := by
        apply List.filter_congr
        intro k hk
        have hne : k ≠ fp := fun he => hin (he ▸ hk)
        simp [List.contains_cons, hne]
      have hnil : succsOf nodes fp = [] := by
        have hlook : lookupKey nodes fp = none := by
          cases hf : nodes.find? (fun p => p.1 == fp) with
          | none => simp [lookupKey, hf]
          | some pr =>
            have hmem := List.mem_of_find?_eq_some hf
            have hkey := List.find?_some hf
            simp only [beq_iff_eq] at hkey
            exact absurd (List.mem_map.mpr ⟨pr, hmem, hkey⟩) hin
        simp [succsOf, hlook]
      rw [heq, hnil]
      apply Prod.Lex.right
      simp

/-- classify.ts getClientEntries: the file paths of all nodes whose own text
carries the client-marker directive. -/
def getClientEntries (nodes : NodeStore) : List String :=
  ((nodes.map Prod.snd).filter (fun n => n.isClient)).map (fun n => n.filePath)

/-- classify.ts getClientReachable: the set of paths reachable from the client
entry points along in-graph import edges. -/
def getClientReachable (nodes : NodeStore) (clientEntries : List String) : List String :=
  visitAll nodes clientEntries []

/-- classify.ts initNodeTypes: baseline typing, client for every
client-reachable key and server for every other key. -/
def initNodeTypes (nodes : NodeStore) (clientReachable : List String) :
    List (String × ComponentType) :=
  nodes.map (fun p =>
    (p.1, if clientReachable.contains p.1 then ComponentType.client else ComponentType.server))

/-- classify.ts collectImporters, inner step: record fp as an importer of imp
(create the importer set on first use, Set.add semantics afterwards). -/
def addImporter (importers : List (String × List String)) (imp fp : String) :
    List (String × List String) :=
  if importers.any (fun e => e.1 == imp) then
    importers.map (fun e =>
      if e.1 == imp then (e.1, if e.2.contains fp then e.2 else e.2 ++ [fp]) else e)
  else importers ++ [(imp, [fp])]

/-- classify.ts collectImporters: for every node and every import target of
that node, record the node as an importer of the target. -/
def collectImporters (nodes : NodeStore) : List (String × List String) :=
  nodes.foldl
    (fun importers p => p.2.imports.foldl (fun m imp => addImporter m imp p.1) importers)
    []

/-- classify.ts isUniversalType: scan the importer set, tracking whether a
client-typed and a server-typed importer have been seen, with early exit once
both flags hold. -/
def isUniversalType (types : List (String × ComponentType)) :
    List String → Bool → Bool → Bool
  | [], _, _ => false
  | importer :: rest, hasClient, hasServer =>
    let t := lookupKey types importer
    let hasClient := hasClient || (t == some ComponentType.client)
    let hasServer := hasServer || (t == some ComponentType.server)
    if hasClient && hasServer then true
    else isUniversalType types rest hasClient hasServer

/-- classify.ts computeUniversalSet: every node that is not itself
client-marked and whose importer set contains, under the given typing, both a
client-typed and a server-typed importer. -/
def computeUniversalSet (nodes : NodeStore) (importers : List (String × List String))
    (types : List (String × ComponentType)) : List String :=
  nodes.foldl
    (fun universal p =>
      if p.2.isClient then universal
      else
        match lookupKey importers p.1 with
        | none => universal
        | some froms =>
            if isUniversalType types froms false false then insertSet universal p.1
            else universal)
    []

/-- classify.ts computeComponentTypes: the pure classifier.  Baseline typing
from client reachability, then promotion of the universal set computed against
that baseline typing. -/
def computeComponentTypes (nodes : NodeStore) : List (String × ComponentType) :=
  let clientEntries := getClientEntries nodes
  let clientReachable := getClientReachable nodes clientEntries
  let types := initNodeTypes nodes clientReachable
  let importers := collectImporters nodes
  let universalSet := computeUniversalSet nodes importers types
  universalSet.foldl (fun ts fp => setKey ts fp ComponentType.universal) types

/-- Overwrite the classification field of a node. -/
def withType (n : FileNode) (t : ComponentType) : FileNode :=
  { n with type? := some t }

/-- Historical in-place variant, setNodeTypes: write the baseline type into
every node of the live store. -/
def setNodeTypes (nodes : NodeStore) (clientReachable : List String) : NodeStore :=
  nodes.map (fun p =>
    (p.1, withType p.2
      (if clientReachable.contains p.1 then ComponentType.client else ComponentType.server)))

/-- Historical in-place variant, isUniversalType: identical scan to the pure
one, except that importer types are read from the live node store, whose
entries may already have been promoted to universal by this very pass. -/
def isUniversalTypeNodes (nodes : NodeStore) : List String → Bool → Bool → Bool
  | [], _, _ => false
  | importer :: rest, hasClient, hasServer =>
    let t := (lookupKey nodes importer).bind FileNode.type?
    let hasClient := hasClient || (t == some ComponentType.client)
    let hasServer := hasServer || (t == some ComponentType.server)
    if hasClient && hasServer then true
    else isUniversalTypeNodes nodes rest hasClient hasServer

/-- Write the universal type into the node stored at a key. -/
def setTypeAt (nodes : NodeStore) (fp : String) (t : ComponentType) : NodeStore :=
  nodes.map (fun p => if p.1 == fp then (p.1, withType p.2 t) else p)

/-- Historical in-place variant, setUniversalTypes, one key at a time: skip
client-marked nodes and nodes without importers, otherwise promote the node
to universal when the live store currently shows both a client-typed and a
server-typed importer. -/
def setUniversalTypesGo (importers : List (String × List String)) :
    List String → NodeStore → NodeStore
  | [], store => store
  | fp :: rest, store =>
    match lookupKey store fp with
    | none => setUniversalTypesGo importers rest store
    | some node =>
      if node.isClient then setUniversalTypesGo importers rest store
      else
        match lookupKey importers fp with
        | none => setUniversalTypesGo importers rest store
        | some froms =>
            if isUniversalTypeNodes store froms false false then
              setUniversalTypesGo importers rest (setTypeAt store fp ComponentType.universal)
            else setUniversalTypesGo importers rest store

/-- Historical in-place variant, setUniversalTypes: iterate the store keys in
insertion order, updating the live store as promotions are decided. -/
def setUniversalTypes (store : NodeStore) (importers : List (String × List String)) :
    NodeStore :=
  setUniversalTypesGo importers (store.map Prod.fst) store

/-- Historical in-place variant, classifyComponentTypes: baseline types are
written into the live store, then universal promotion runs over the same
store, reading importer types that may already have been promoted. -/
def classifyComponentTypes (store : NodeStore) : NodeStore :=
  let clientEntries := getClientEntries store
  let clientReachable := getClientReachable store clientEntries
  let store1 := setNodeTypes store clientReachable
  let importers := collectImporters store1
  setUniversalTypes store1 importers

/-- Parse result of one on-disk file, as produced by the external
parser/resolver collaborator (analyze.ts): the client-directive flag and the
resolved static import/re-export targets. -/
structure SrcContent where
  isClient : Bool
  imports : List String
deriving DecidableEq, Repr

/-- The file system visible to the engine: the set of existing source files
together with their parse results. -/
abbrev FileSystem := List (String × SrcContent)

/-- The mutable state of a ComponentEnvGraph instance: the node store and the
underlying ts-morph project parse set (each registered file with its currently
cached content). -/
structure EngineState where
  nodes : NodeStore
  projectFiles : List (String × SrcContent)
deriving DecidableEq, Repr

/-- Engine construction (index.ts constructor): the ts-morph project is
created with skipAddingFilesFromTsConfig set to false, so it starts out
holding every file the tsconfig resolves; the node store starts empty. -/
def initialEngine (tsconfigFiles : List (String × SrcContent)) : EngineState :=
  { nodes := [], projectFiles := tsconfigFiles }

/-- files.ts removeDeletedFiles: for every source file currently registered
in the project, if its path no longer exists on disk, delete its node and
remove it from the project. -/
def removeDeletedFiles (fs : FileSystem) (st : EngineState) : EngineState :=
  st.projectFiles.foldl
    (fun acc sf =>
      if hasKey fs sf.1 then acc
      else { nodes := deleteKey acc.nodes sf.1, projectFiles := deleteKey acc.projectFiles sf.1 })
    st

/-- The exclusion matcher value handed to refreshChangedFiles.  files.ts
declares the parameter as a RegExp and invokes its test method; the
historical engine variant passes the EXCLUDES RegExp (a RegExp is modelled
by its match predicate), while the current index.ts passes the
isGlobExcluded arrow function, a value that has no test method. -/
inductive ExcludesMatcher
  | regexp (matchPred : String → Bool)
  | functionValue (f : String → Bool)

/-- The excludes.test(changed) method call opening each iteration of the
refreshChangedFiles loop: on a RegExp it evaluates the match; on a function
value the test property is undefined and the call throws a TypeError. -/
def matcherTest : ExcludesMatcher → String → Except String Bool
  | ExcludesMatcher.regexp matchPred, changed => Except.ok (matchPred changed)
  | ExcludesMatcher.functionValue _, _ =>
      Except.error "TypeError: excludes.test is not a function"

/-- files.ts refreshChangedFiles: each loop iteration begins with the
excludes.test(changed) call, so with the function value that the current
index.ts passes the loop throws a TypeError at its first path, before any
eviction, refresh, registration or affected-set insertion; the error carries
the engine state at the throw.  Under a genuine RegExp matcher, an excluded
path has its node and project registration evicted and is not marked
affected; any other path is refreshed from disk when already registered (a
vanished file drops out of the project), or newly registered (a failing
registration for a vanished file is silently swallowed), and is always added
to the affected set. -/
def refreshChangedFiles (fs : FileSystem) (excludes : ExcludesMatcher) :
    List String → EngineState → List String →
    Except (String × EngineState) (EngineState × List String)
  | [], st, affectedFiles => Except.ok (st, affectedFiles)
  | changed :: rest, st, affectedFiles =>
    match matcherTest excludes changed with
    | Except.error e => Except.error (e, st)
    | Except.ok true =>
        refreshChangedFiles fs excludes rest
          { nodes := deleteKey st.nodes changed,
            projectFiles := deleteKey st.projectFiles changed }
          affectedFiles
    | Except.ok false =>
        refreshChangedFiles fs excludes rest
          (if hasKey st.projectFiles changed then
            match lookupKey fs changed with
            | some c => { st with projectFiles := setKey st.projectFiles changed c }
            | none => { st with projectFiles := deleteKey st.projectFiles changed }
          else
            match lookupKey fs changed with
            | some c => { st with projectFiles := st.projectFiles ++ [(changed, c)] }
            | none => st)
          (insertSet affectedFiles changed)

/-- files.ts addAllSourceFiles: register every source file on disk that the
exclusion-negated glob matches and that is not already registered; already
registered files keep their cached content. -/
def addAllSourceFiles (fs : FileSystem) (excludes : String → Bool) (st : EngineState) :
    EngineState :=
  { st with
    projectFiles :=
      fs.foldl
        (fun pf f =>
          if excludes f.1 then pf
          else if hasKey pf f.1 then pf
          else pf ++ [(f.1, f.2)])
        st.projectFiles }

/-- files.ts markAllFilesAsAffected: add every registered file path to the
affected set. -/
def markAllFilesAsAffected (st : EngineState) (affectedFiles : List String) : List String :=
  st.projectFiles.foldl (fun aff sf => insertSet aff sf.1) affectedFiles

/-- Steps of one build() call, in execution order, used to state where in the
call the deletion pass runs. -/
inductive BuildEvent
  | deletionPass
  | refreshChangedPhase
  | addAllPhase
  | markAffectedPhase
  | updateNodesPhase
  | classifyPhase
  | firePhase
deriving DecidableEq, BEq, Repr

/-- Outcome of the reconciliation phase of build(): either it completed with
the affected set, or an exception escaped it; both carry the engine state
reached and the phases that ran, in order. -/
inductive ReconcileOutcome
  | ok (state : EngineState) (affected : List String) (trace : List BuildEvent)
  | threw (message : String) (stateAtThrow : EngineState) (trace : List BuildEvent)

/-- index.ts updateProjectSourceFiles: the deletion pass runs first; in
incremental mode the changed files are then refreshed, with the
isGlobExcluded function value passed as the matcher (files.ts expects a
RegExp there), so the refresh loop throws on its first path; in full-scan
mode the project is re-globbed and every registered file is marked
affected. -/
def updateProjectSourceFiles (fs : FileSystem) (excludes : String → Bool)
    (changedFiles : Option (List String)) (st : EngineState) : ReconcileOutcome :=
  let st1 := removeDeletedFiles fs st
  match changedFiles with
  | some (c :: cs) =>
    match refreshChangedFiles fs (ExcludesMatcher.functionValue excludes) (c :: cs) st1 [] with
    | Except.error es =>
        ReconcileOutcome.threw es.1 es.2 [BuildEvent.deletionPass]
    | Except.ok r =>
        ReconcileOutcome.ok r.1 r.2 [BuildEvent.deletionPass, BuildEvent.refreshChangedPhase]
  | _ =>
    let st2 := addAllSourceFiles fs excludes st1
    let aff := markAllFilesAsAffected st2 []
    ReconcileOutcome.ok st2 aff
      [BuildEvent.deletionPass, BuildEvent.addAllPhase, BuildEvent.markAffectedPhase]

/-- index.ts updateFileNodes: for each affected path, rebuild its node from
the parse result of its registered source file, or delete the node when no
source file is registered for it. -/
def updateFileNodes (filesToUpdate : List String) (st : EngineState) : EngineState :=
  filesToUpdate.foldl
    (fun acc filePath =>
      match lookupKey acc.projectFiles filePath with
      | none => { acc with nodes := deleteKey acc.nodes filePath }
      | some c =>
          { acc with
            nodes := setKey acc.nodes filePath
              { filePath := filePath, isClient := c.isClient, imports := c.imports } })
    st

/-- The value written into a node by the type-application loop of build():
the computed type when present, otherwise the node is left unchanged. -/
def applyTypeTo (types : List (String × ComponentType)) (pr : String × FileNode) : FileNode :=
  match lookupKey types pr.1 with
  | some t => withType pr.2 t
  | none => pr.2

/-- The type-application loop of build(): write each computed type into the
node stored under the same key. -/
def applyTypes (nodes : NodeStore) (types : List (String × ComponentType)) : NodeStore :=
  nodes.map (fun pr => (pr.1, applyTypeTo types pr))

/-- Result of one build() call: the engine state after the call (also when
an exception escaped the call, since the mutations made before the throw
persist on the engine), the affected set of the call (empty when the call
threw before producing one), the executed phases in order, and the exception
that escaped the call, if any. -/
structure BuildResult where
  state : EngineState
  affected : List String
  trace : List BuildEvent
  thrown : Option String := none
deriving Repr

/-- index.ts build: reconcile the project source files; when that phase
throws (as every non-empty incremental call currently does, see
refreshChangedFiles) the exception escapes build and nothing further runs;
otherwise rebuild the affected nodes, classify the whole store with the pure
classifier, apply the types in place, then fire the update event. -/
def build (fs : FileSystem) (excludes : String → Bool) (changedFiles : Option (List String))
    (st : EngineState) : BuildResult :=
  match updateProjectSourceFiles fs excludes changedFiles st with
  | ReconcileOutcome.threw e stAtThrow tr =>
      { state := stAtThrow, affected := [], trace := tr, thrown := some e }
  | ReconcileOutcome.ok st1 affected tr =>
      let st2 := updateFileNodes affected st1
      let types := computeComponentTypes st2.nodes
      let st3 := { st2 with nodes := applyTypes st2.nodes types }
      { state := st3, affected := affected,
        trace := tr ++ [BuildEvent.updateNodesPhase, BuildEvent.classifyPhase,
          BuildEvent.firePhase],
        thrown := none }

/-- One registered update listener, modelled by the outcome of invoking it:
normal return or a thrown exception with its message. -/
abbrev Listener := Except String Unit

/-- EventEmitter.emit, invocation loop: listeners run synchronously in
registration order; a thrown exception propagates immediately to the caller of
emit, and the remaining listeners are not invoked.  Returns the zero-based
indices of the listeners that were invoked and the propagated exception, if
any. -/
def emitUpdateGo : List Listener → Nat → List Nat × Option String
  | [], _ => ([], none)
  | l :: rest, i =>
    match l with
    | Except.ok _ =>
        let r := emitUpdateGo rest (i + 1)
        (i :: r.1, r.2)
    | Except.error e => ([i], some e)

/-- index.ts fireDidUpdate: emit the update event to the registered
listeners. -/
def emitUpdate (listeners : List Listener) : List Nat × Option String :=
  emitUpdateGo listeners 0

/-- A build() call paired with its fireDidUpdate notification: the graph
update completes before any listener runs (a build whose reconciliation
phase throws never reaches fireDidUpdate; this pairing models the calls
that complete their graph update, which is what claim C9 is about). -/
def buildAndNotify (fs : FileSystem) (excludes : String → Bool)
    (changedFiles : Option (List String)) (st : EngineState) (listeners : List Listener) :
    BuildResult × (List Nat × Option String) :=
  (build fs excludes changedFiles st, emitUpdate listeners)

/-- The baseline store with the keys of a given list retyped to universal;
used to describe the intermediate states of the in-place promotion pass. -/
def retype (store : NodeStore) (promoted : List String) : NodeStore :=
  store.map (fun p =>
    (p.1, if p.1 ∈ promoted then withType p.2 ComponentType.universal else p.2))

/-- Concrete store for the fan-in promotion scenario: client-marked a.tsx and
plain c.tsx both import plain b.tsx, which has no imports of its own. -/
def fanInStore : NodeStore :=
  [("a.tsx", { filePath := "a.tsx", isClient := true, imports := ["b.tsx"] }),
   ("b.tsx", { filePath := "b.tsx", isClient := false, imports := [] }),
   ("c.tsx", { filePath := "c.tsx", isClient := false, imports := ["b.tsx"] })]

/-- Concrete store for the import-cycle scenario: a.tsx and b.tsx import each
other and neither is client-marked. -/
def cycleStore : NodeStore :=
  [("a.tsx", { filePath := "a.tsx", isClient := false, imports := ["b.tsx"] }),
   ("b.tsx", { filePath := "b.tsx", isClient := false, imports := ["a.tsx"] })]

/-- Concrete store for a client-marked file imported only by a server file. -/
def clientLeafStore : NodeStore :=
  [("s.tsx", { filePath := "s.tsx", isClient := false, imports := ["k.tsx"] }),
   ("k.tsx", { filePath := "k.tsx", isClient := true, imports := [] })]

/-- Concrete store on which the pure and the in-place classifier disagree:
x.tsx is promoted to universal before t.tsx is considered, so the in-place
pass no longer sees a client-typed importer for t.tsx. -/
def promotionChainStore : NodeStore :=
  [("c.tsx", { filePath := "c.tsx", isClient := true, imports := ["x.tsx"] }),
   ("s.tsx", { filePath := "s.tsx", isClient := false, imports := ["x.tsx"] }),
   ("x.tsx", { filePath := "x.tsx", isClient := false, imports := ["t.tsx"] }),
   ("s2.tsx", { filePath := "s2.tsx", isClient := false, imports := ["t.tsx"] }),
   ("t.tsx", { filePath := "t.tsx", isClient := false, imports := [] })]

/-- Exclusion predicate of the default pattern set, restricted to the single
story file appearing in the concrete scenarios. -/
def storiesExcluded (p : String) : Bool := p == "a.stories.tsx"

/-- Exclusion predicate matching nothing. -/
def noExclusions (_p : String) : Bool := false

/-- File system holding a single file that matches an exclusion pattern. -/
def storiesFs : FileSystem := [("a.stories.tsx", { isClient := false, imports := [] })]

/-- Engine state that tracks the single file p.tsx in both the node store and
the parse set, as left behind by an earlier successful build. -/
def trackedEngine : EngineState :=
  { nodes :=
      [("p.tsx", { filePath := "p.tsx", isClient := false, imports := [],
                   type? := some ComponentType.server })],
    projectFiles := [("p.tsx", { isClient := false, imports := [] })] }

/-- Whether some addition or refresh phase of a build trace runs at or after
its first deletion pass.  The specification asserts the deletion pass runs
after additions and refreshes, which would make this false. -/
def refreshAfterDeletion (tr : List BuildEvent) : Bool :=
  (tr.dropWhile (fun e => !(e == BuildEvent.deletionPass))).any
    (fun e => e == BuildEvent.refreshChangedPhase || e == BuildEvent.addAllPhase)

/-- Whether a build trace opens with the deletion pass. -/
def deletionPassFirst (tr : List BuildEvent) : Bool :=
  tr.head? == some BuildEvent.deletionPass

/-- Map.get on a cons cell. -/
theorem lookupKey_cons {α : Type} (a : String) (b : α) (t : List (String × α)) (k : String) :
    lookupKey ((a, b) :: t) k = if a = k then some b else lookupKey t k := by
  by_cases h : a = k
  · rw [lookupKey, List.find?_cons_of_pos _ (by simpa using h), if_pos h]
    rfl
  · rw [lookupKey, List.find?_cons_of_neg _ (by simpa using h), if_neg h]
    rfl

/-- Map.get distributes over list concatenation, earlier entries first. -/
theorem lookupKey_append {α : Type} (l₁ l₂ : List (String × α)) (k : String) :
    lookupKey (l₁ ++ l₂) k = (lookupKey l₁ k).or (lookupKey l₂ k) := by
  simp [lookupKey, List.find?_append]
  cases l₁.find? (fun p => p.1 == k) <;> simp

/-- A present key is listed among the map keys. -/
theorem mem_keys_of_lookup_some {α : Type} {m : List (String × α)} {k : String} {v : α}
    (h : lookupKey m k = some v) : k ∈ m.map Prod.fst := by
  have hsome : ∃ pr, m.find? (fun p => p.1 == k) = some pr := by
    cases hf : m.find? (fun p => p.1 == k) with
    | none => simp [lookupKey, hf] at h
    | some v => exact ⟨v, rfl⟩
  rcases hsome with ⟨pr, hpr⟩
  have hmem := List.mem_of_find?_eq_some hpr
  have hkey := List.find?_some hpr
  simp only [beq_iff_eq] at hkey
  exact List.mem_map.mpr ⟨pr, hmem, hkey⟩

/-- Looking up an unlisted key yields nothing. -/
theorem lookup_none_of_not_mem_keys {α : Type} {m : List (String × α)} {k : String}
    (h : k ∉ m.map Prod.fst) : lookupKey m k = none := by
  cases hf : m.find? (fun p => p.1 == k) with
  | none => simp [lookupKey, hf]
  | some pr =>
    have hmem := List.mem_of_find?_eq_some hf
    have hkey := List.find?_some hf
    simp only [beq_iff_eq] at hkey
    exact absurd (List.mem_map.mpr ⟨pr, hmem, hkey⟩) h

/-- A successful lookup comes from an entry of the list. -/
theorem mem_of_lookup_some {α : Type} {m : List (String × α)} {k : String} {v : α}
    (h : lookupKey m k = some v) : (k, v) ∈ m := by
  have hsome : ∃ pr, m.find? (fun p => p.1 == k) = some pr ∧ pr.2 = v := by
    cases hf : m.find? (fun p => p.1 == k) with
    | none => simp [lookupKey, hf] at h
    | some pr =>
      refine ⟨pr, rfl, ?_⟩
      simpa [lookupKey, hf] using h
  rcases hsome with ⟨pr, hpr, hv⟩
  have hmem := List.mem_of_find?_eq_some hpr
  have hkey := List.find?_some hpr
  simp only [beq_iff_eq] at hkey
  have : (k, v) = pr := by
    cases pr
    simp at hkey hv
    simp [hkey, hv]
  exact this ▸ hmem

/-- With duplicate-free keys, membership determines the lookup result. -/
theorem lookup_eq_of_mem_of_nodup {α : Type} {m : List (String × α)} {k : String} {v : α}
    (hnd : (m.map Prod.fst).Nodup) (h : (k, v) ∈ m) : lookupKey m k = some v := by
  induction m with
  | nil => simp at h
  | cons hd t ih =>
    obtain ⟨a, b⟩ := hd
    simp only [List.map_cons, List.nodup_cons] at hnd
    rcases List.mem_cons.mp h with he | ht
    · injection he with hk hv
      rw [lookupKey_cons, if_pos hk.symm, hv]
    · have hka : a ≠ k := by
        intro hak
        exact hnd.1 (List.mem_map.mpr ⟨(k, v), ht, hak.symm ▸ rfl⟩)
      rw [lookupKey_cons, if_neg hka]
      exact ih hnd.2 ht

/-- Map.get after the in-place half of Map.set: the targeted key reads the
new value when it was present, any other key is untouched. -/
theorem lookupKey_updateMap {α : Type} (m : List (String × α)) (k p : String) (v : α) :
    lookupKey (m.map (fun q => if q.1 == k then (k, v) else q)) p =
      if p = k then (lookupKey m k).map (fun _ => v) else lookupKey m p := by
  induction m with
  | nil => simp [lookupKey]
  | cons hd t ih =>
    obtain ⟨a, b⟩ := hd
    simp only [beq_iff_eq] at ih ⊢
    by_cases hak : a = k <;> by_cases hpk : p = k
    · subst hak
      subst hpk
      simp [lookupKey_cons, ih]
    · subst hak
      have hap : ¬a = p := fun h => hpk h.symm
      simp [lookupKey_cons, ih, hpk, hap]
    · subst hpk
      have hap : ¬a = p := hak
      simp [lookupKey_cons, ih, hap, hak]
    · by_cases hap : a = p
      · simp [lookupKey_cons, ih, hap, hpk, hak]
      · simp [lookupKey_cons, ih, hap, hpk, hak]

/-- Map.has agrees with the success of Map.get, phrased through any. -/
theorem any_key_eq_true_iff {α : Type} (m : List (String × α)) (k : String) :
    m.any (fun q => q.1 == k) = true ↔ (lookupKey m k).isSome = true := by
  rw [List.any_eq_true]
  constructor
  · rintro ⟨x, hx, hpx⟩
    cases hf : m.find? (fun q => q.1 == k) with
    | none =>
      exact absurd hpx (List.find?_eq_none.mp hf x hx)
    | some pr => simp [lookupKey, hf]
  · intro h
    cases hf : m.find? (fun q => q.1 == k) with
    | none => simp [lookupKey, hf] at h
    | some pr =>
      have hp := List.find?_some hf
      exact ⟨pr, List.mem_of_find?_eq_some hf, hp⟩

/-- Map.set reads back the written value at its key and leaves every other
key unchanged. -/
theorem lookupKey_setKey {α : Type} (m : List (String × α)) (k p : String) (v : α) :
    lookupKey (setKey m k v) p = if p = k then some v else lookupKey m p := by
  unfold setKey
  by_cases hany : m.any (fun q => q.1 == k) = true
  · rw [if_pos hany, lookupKey_updateMap]
    by_cases hpk : p = k
    · have := (any_key_eq_true_iff m k).mp hany
      cases hl : lookupKey m k with
      | none => rw [hl] at this; simp at this
      | some w => simp [hpk, hl]
    · simp [hpk]
  · rw [if_neg hany, lookupKey_append]
    by_cases hpk : p = k
    · subst hpk
      have hnone : lookupKey m p = none := by
        cases hl : lookupKey m p with
        | none => rfl
        | some w =>
          exact absurd ((any_key_eq_true_iff m p).mpr (by simp [hl])) hany
      rw [hnone, lookupKey_cons]
      simp
    · have : lookupKey [(k, v)] p = none := by
        rw [lookupKey_cons, if_neg (fun h : k = p => hpk h.symm)]
        rfl
      rw [this, if_neg hpk]
      cases lookupKey m p <;> rfl

/-- Map.delete removes its key and leaves every other key unchanged. -/
theorem lookupKey_deleteKey {α : Type} (m : List (String × α)) (k p : String) :
    lookupKey (deleteKey m k) p = if p = k then none else lookupKey m p := by
  induction m with
  | nil => simp [deleteKey, lookupKey]
  | cons hd t ih =>
    obtain ⟨a, b⟩ := hd
    by_cases hak : a = k
    · subst hak
      have hdel : deleteKey ((a, b) :: t) a = deleteKey t a := by
        simp [deleteKey, List.filter_cons]
      rw [hdel, ih]
      by_cases hpk : p = a
      · simp [hpk]
      · rw [if_neg hpk, if_neg hpk, lookupKey_cons, if_neg (fun h : a = p => hpk h.symm)]
    · have hdel : deleteKey ((a, b) :: t) k = (a, b) :: deleteKey t k := by
        simp [deleteKey, List.filter_cons, hak]
      rw [hdel, lookupKey_cons, lookupKey_cons, ih]
      by_cases hap : a = p
      · have hpk : p ≠ k := fun h => hak (hap.trans h)
        simp [hap, hpk]
      · simp [hap]

/-- Set.add membership. -/
theorem mem_insertSet {s : List String} {x y : String} :
    x ∈ insertSet s y ↔ x ∈ s ∨ x = y := by
  unfold insertSet
  by_cases h : s.contains y = true
  · rw [if_pos h]
    constructor
    · exact Or.inl
    · rintro (hx | hx)
      · exact hx
      · exact hx ▸ (by simpa using h)
  · rw [if_neg h]
    simp [List.mem_append]

/-- Map.get through a key-preserving map of the entries. -/
theorem lookupKey_map_keyed {α β : Type} (m : List (String × α)) (g : String × α → β)
    (k : String) :
    lookupKey (m.map (fun pr => (pr.1, g pr))) k =
      (m.find? (fun pr => pr.1 == k)).map g := by
  unfold lookupKey
  rw [List.find?_map]
  have : ((fun p : String × β => p.1 == k) ∘ fun pr : String × α => (pr.1, g pr)) =
      fun pr : String × α => pr.1 == k := rfl
  rw [this, Option.map_map]
  rfl

/-- Paths already marked visited stay in the result of the traversal. -/
theorem visited_subset_visitAll (nodes : NodeStore) (stack visited : List String) :
    ∀ x ∈ visited, x ∈ visitAll nodes stack visited := by
  induction stack, visited using visitAll.induct nodes with
  | case1 visited => simp [visitAll]
  | case2 fp stack visited hc ih =>
    intro x hx
    rw [visitAll]
    simp only [if_pos hc]
    exact ih x hx
  | case3 fp stack visited hc ih =>
    intro x hx
    rw [visitAll]
    simp only [if_neg hc]
    exact ih x (List.mem_cons_of_mem fp hx)

/-- Every path on the worklist ends up in the result of the traversal. -/
theorem stack_subset_visitAll (nodes : NodeStore) (stack visited : List String) :
    ∀ x ∈ stack, x ∈ visitAll nodes stack visited := by
  induction stack, visited using visitAll.induct nodes with
  | case1 visited => simp
  | case2 fp stack visited hc ih =>
    intro x hx
    rw [visitAll]
    simp only [if_pos hc]
    rcases List.mem_cons.mp hx with he | ht
    · exact he ▸ visited_subset_visitAll nodes stack visited fp hc
    · exact ih x ht
  | case3 fp stack visited hc ih =>
    intro x hx
    rw [visitAll]
    simp only [if_neg hc]
    rcases List.mem_cons.mp hx with he | ht
    · subst he
      exact visited_subset_visitAll nodes _ (x :: visited) x (List.mem_cons_self x visited)
    · exact ih x (List.mem_append_right _ ht)

/-- The traversal never records a path twice: a path already marked visited is
never re-visited, which is what makes import cycles terminate. -/
theorem nodup_visitAll (nodes : NodeStore) (stack visited : List String)
    (h : visited.Nodup) : (visitAll nodes stack visited).Nodup := by
  induction stack, visited using visitAll.induct nodes with
  | case1 visited => simpa [visitAll] using h
  | case2 fp stack visited hc ih =>
    rw [visitAll]
    simp only [if_pos hc]
    exact ih h
  | case3 fp stack visited hc ih =>
    rw [visitAll]
    simp only [if_neg hc]
    exact ih (List.nodup_cons.mpr ⟨hc, h⟩)

/-- Unfolding equation of the pure classifier. -/
theorem computeComponentTypes_eq (nodes : NodeStore) :
    computeComponentTypes nodes =
      (computeUniversalSet nodes (collectImporters nodes)
        (initNodeTypes nodes (getClientReachable nodes (getClientEntries nodes)))).foldl
        (fun ts fp => setKey ts fp ComponentType.universal)
        (initNodeTypes nodes (getClientReachable nodes (getClientEntries nodes))) := rfl

/-- Unfolding equation of the in-place classifier. -/
theorem classifyComponentTypes_eq (store : NodeStore) :
    classifyComponentTypes store =
      setUniversalTypes
        (setNodeTypes store (getClientReachable store (getClientEntries store)))
        (collectImporters
          (setNodeTypes store (getClientReachable store (getClientEntries store)))) := rfl

/-- Reading the typing map after the promotion write-back loop: promoted keys
read universal, all other keys read their baseline type. -/
theorem lookupKey_universalFold (uni : List String) (types : List (String × ComponentType))
    (p : String) :
    lookupKey (uni.foldl (fun ts fp => setKey ts fp ComponentType.universal) types) p =
      if p ∈ uni then some ComponentType.universal else lookupKey types p := by
  induction uni generalizing types with
  | nil => simp
  | cons u rest ih =>
    simp only [List.foldl_cons]
    rw [ih]
    by_cases hp : p ∈ rest
    · simp [hp]
    · by_cases hu : p = u
      · simp [hp, hu, lookupKey_setKey]
      · simp [hp, hu, lookupKey_setKey, List.mem_cons]

/-- Reading the baseline typing map: a stored key reads client precisely when
it is client-reachable, any other stored key reads server. -/
theorem lookupKey_initNodeTypes (nodes : NodeStore) (r : List String) (p : String) :
    lookupKey (initNodeTypes nodes r) p =
      (lookupKey nodes p).map
        (fun _ => if r.contains p then ComponentType.client else ComponentType.server) := by
  unfold initNodeTypes
  rw [lookupKey_map_keyed]
  unfold lookupKey
  cases hf : nodes.find? (fun pr => pr.1 == p) with
  | none => rfl
  | some pr =>
    have hkey := List.find?_some hf
    simp only [beq_iff_eq] at hkey
    simp [hkey]

/-- The baseline typing never assigns universal. -/
theorem initNodeTypes_ne_universal (nodes : NodeStore) (r : List String) (p : String)
    {t : ComponentType} (h : lookupKey (initNodeTypes nodes r) p = some t) :
    t ≠ ComponentType.universal := by
  rw [lookupKey_initNodeTypes] at h
  cases hl : lookupKey nodes p with
  | none => rw [hl] at h; simp at h
  | some n =>
    rw [hl] at h
    simp at h
    rw [← h]
    by_cases hr : p ∈ r <;> simp [hr]

/-- Membership in the universal set computed by the pure classifier: exactly
the stored, non-client-marked paths whose recorded importer set passes the
mixed client-and-server test under the given typing. -/
theorem mem_computeUniversalSet (nodes : NodeStore)
    (importers : List (String × List String)) (types : List (String × ComponentType))
    (x : String) :
    x ∈ computeUniversalSet nodes importers types ↔
      ∃ n, (x, n) ∈ nodes ∧ n.isClient = false ∧
        ∃ froms, lookupKey importers x = some froms ∧
          isUniversalType types froms false false = true := by
  have haux : ∀ (l : List (String × FileNode)) (acc : List String),
      x ∈ l.foldl
        (fun universal p =>
          if p.2.isClient then universal
          else
            match lookupKey importers p.1 with
            | none => universal
            | some froms =>
                if isUniversalType types froms false false then insertSet universal p.1
                else universal)
        acc ↔
      x ∈ acc ∨ ∃ pr, pr ∈ l ∧ pr.1 = x ∧ pr.2.isClient = false ∧
        ∃ froms, lookupKey importers pr.1 = some froms ∧
          isUniversalType types froms false false = true := by
    intro l
    induction l with
    | nil => simp
    | cons hd t ih =>
      intro acc
      simp only [List.foldl_cons]
      rw [ih]
      constructor
      · rintro (hacc | ⟨pr, hpr, hrest⟩)
        · by_cases hc : hd.2.isClient = true
          · simp only [hc, if_pos] at hacc
            exact Or.inl hacc
          · simp only [Bool.not_eq_true] at hc
            simp only [hc] at hacc
            cases hi : lookupKey importers hd.1 with
            | none =>
              rw [hi] at hacc
              exact Or.inl hacc
            | some froms =>
              rw [hi] at hacc
              by_cases hu : isUniversalType types froms false false = true
              · simp only [hu, if_pos] at hacc
                rcases mem_insertSet.mp hacc with ha | hx
                · exact Or.inl ha
                · exact Or.inr ⟨hd, List.mem_cons_self hd t, hx.symm, hc, froms, hi, hu⟩
              · simp only [Bool.not_eq_true] at hu
                simp only [hu] at hacc
                exact Or.inl hacc
        · exact Or.inr ⟨pr, List.mem_cons_of_mem hd hpr, hrest⟩
      · rintro (hacc | ⟨pr, hpr, hkey, hc, froms, hi, hu⟩)
        · left
          by_cases hcl : hd.2.isClient = true
          · simpa [hcl] using hacc
          · simp only [Bool.not_eq_true] at hcl
            simp only [hcl]
            cases hi : lookupKey importers hd.1 with
            | none => exact hacc
            | some froms =>
              by_cases hu : isUniversalType types froms false false = true
              · simp only [hu, if_pos]
                exact mem_insertSet.mpr (Or.inl hacc)
              · simp only [Bool.not_eq_true] at hu
                simp only [hu]
                exact hacc
        · rcases List.mem_cons.mp hpr with he | ht
          · subst he
            left
            simp only [hc, Bool.false_eq_true, if_false, hi, hu, if_pos]
            exact mem_insertSet.mpr (Or.inr hkey.symm)
          · exact Or.inr ⟨pr, ht, hkey, hc, froms, hi, hu⟩
  constructor
  · intro h
    rcases (haux nodes []).mp h with hfalse | ⟨pr, hpr, hkey, hrest⟩
    · simp at hfalse
    · refine ⟨pr.2, ?_, ?_⟩
      · rw [← hkey]
        simpa using hpr
      · rw [hkey] at hrest
        exact hrest
  · rintro ⟨n, hmem, hc, froms, hi, hu⟩
    exact (haux nodes []).mpr (Or.inr ⟨(x, n), hmem, rfl, hc, froms, hi, hu⟩)

/-- The baseline typing map has exactly the store keys. -/
theorem initNodeTypes_keys (nodes : NodeStore) (r : List String) :
    (initNodeTypes nodes r).map Prod.fst = nodes.map Prod.fst := by
  unfold initNodeTypes
  rw [List.map_map]
  rfl

/-- Map.set on a present key preserves the key list. -/
theorem keys_setKey_of_mem {α : Type} (m : List (String × α)) (k : String) (v : α)
    (h : k ∈ m.map Prod.fst) : (setKey m k v).map Prod.fst = m.map Prod.fst := by
  have hany : m.any (fun q => q.1 == k) = true := by
    rcases List.mem_map.mp h with ⟨pr, hpr, hfst⟩
    exact List.any_eq_true.mpr ⟨pr, hpr, by simp [hfst]⟩
  unfold setKey
  rw [if_pos hany, List.map_map]
  apply List.map_congr_left
  intro q _hq
  by_cases hqk : q.1 = k
  · simp [hqk]
  · simp [hqk]

/-- The promotion write-back loop preserves the key list when every promoted
path is already a key. -/
theorem universalFold_keys (uni : List String) (types : List (String × ComponentType))
    (h : ∀ u ∈ uni, u ∈ types.map Prod.fst) :
    (uni.foldl (fun ts fp => setKey ts fp ComponentType.universal) types).map Prod.fst =
      types.map Prod.fst := by
  induction uni generalizing types with
  | nil => simp
  | cons u rest ih =>
    simp only [List.foldl_cons]
    have hk := keys_setKey_of_mem types u ComponentType.universal (h u (List.mem_cons_self u rest))
    have hrest : ∀ x ∈ rest, x ∈ (setKey types u ComponentType.universal).map Prod.fst := by
      intro x hx
      rw [hk]
      exact h x (List.mem_cons_of_mem u hx)
    rw [ih _ hrest, hk]

/-- Claim C1: on the store where client-marked a.tsx and plain c.tsx both import
plain b.tsx, the classifier assigns client to a.tsx, server to c.tsx, and
universal to b.tsx. -/
theorem fan_in_classification :
    lookupKey (computeComponentTypes fanInStore) "a.tsx" = some ComponentType.client ∧
    lookupKey (computeComponentTypes fanInStore) "c.tsx" = some ComponentType.server ∧
    lookupKey (computeComponentTypes fanInStore) "b.tsx" = some ComponentType.universal := by
  have hreach : getClientReachable fanInStore (getClientEntries fanInStore) =
      ["b.tsx", "a.tsx"] := by
    simp [getClientReachable, getClientEntries, fanInStore, visitAll, succsOf, lookupKey,
      hasKey, List.find?]
  refine ⟨?_, ?_, ?_⟩ <;> (rw [computeComponentTypes_eq, hreach]; decide)

/-- Claim C4: the client-reachability traversal never records a visited path twice
(for any store and any worklist), and on the two-node import cycle with no
client directive both nodes are classified server; termination on cyclic
stores is certified by the well-founded recursion of visitAll itself. -/
theorem cycle_traversal_safe :
    (∀ (nodes : NodeStore) (stack : List String), (visitAll nodes stack []).Nodup) ∧
    lookupKey (computeComponentTypes cycleStore) "a.tsx" = some ComponentType.server ∧
    lookupKey (computeComponentTypes cycleStore) "b.tsx" = some ComponentType.server := by
  have hreach : getClientReachable cycleStore (getClientEntries cycleStore) = [] := by
    simp [getClientReachable, getClientEntries, cycleStore, visitAll]
  refine ⟨fun nodes stack => nodup_visitAll nodes stack [] List.nodup_nil, ?_, ?_⟩ <;>
    (rw [computeComponentTypes_eq, hreach]; decide)

/-- Claim C5: the pure classifier returns a typing map whose keys are exactly the
keys of the input store, each mapped to client, server or universal; the
input store is read-only for it (the embedding is a pure function of the
store, so non-mutation holds by construction). -/
theorem computeComponentTypes_covers_all_keys (nodes : NodeStore) :
    (computeComponentTypes nodes).map Prod.fst = nodes.map Prod.fst ∧
    ∀ e ∈ computeComponentTypes nodes,
      e.2 = ComponentType.client ∨ e.2 = ComponentType.server ∨
        e.2 = ComponentType.universal := by
  constructor
  · rw [computeComponentTypes_eq]
    have hkeysInit :
        (initNodeTypes nodes (getClientReachable nodes (getClientEntries nodes))).map Prod.fst =
          nodes.map Prod.fst := initNodeTypes_keys nodes _
    have hsub : ∀ u ∈ computeUniversalSet nodes (collectImporters nodes)
        (initNodeTypes nodes (getClientReachable nodes (getClientEntries nodes))),
        u ∈ (initNodeTypes nodes (getClientReachable nodes (getClientEntries nodes))).map
          Prod.fst := by
      intro u hu
      rw [hkeysInit]
      rcases (mem_computeUniversalSet _ _ _ _).mp hu with ⟨n, hmem, _⟩
      exact List.mem_map.mpr ⟨(u, n), hmem, rfl⟩
    rw [universalFold_keys _ _ hsub, hkeysInit]
  · intro e _he
    cases h2 : e.2 <;> simp

/-- Claim C2: the universal-promotion decision of the pure classifier is evaluated
against the baseline (step-3) typing, which contains no universal entry: a
path ends up typed universal precisely when the universal-set test over the
baseline typing admits it, so a promotion never depends on another node's
already-promoted universal type and promotion does not cascade. -/
theorem promotion_uses_baseline_types_only (nodes : NodeStore) (fp : String) :
    (∀ e ∈ initNodeTypes nodes (getClientReachable nodes (getClientEntries nodes)),
        e.2 ≠ ComponentType.universal) ∧
    (lookupKey (computeComponentTypes nodes) fp = some ComponentType.universal ↔
      fp ∈ computeUniversalSet nodes (collectImporters nodes)
        (initNodeTypes nodes (getClientReachable nodes (getClientEntries nodes)))) := by
  constructor
  · intro e he
    rcases List.mem_map.mp he with ⟨pr, _hpr, hemap⟩
    rw [← hemap]
    by_cases hr : pr.1 ∈ getClientReachable nodes (getClientEntries nodes) <;> simp [hr]
  · rw [computeComponentTypes_eq, lookupKey_universalFold]
    by_cases hmem : fp ∈ computeUniversalSet nodes (collectImporters nodes)
        (initNodeTypes nodes (getClientReachable nodes (getClientEntries nodes)))
    · simp [hmem]
    · rw [if_neg hmem]
      constructor
      · intro h
        exact absurd rfl (initNodeTypes_ne_universal nodes _ fp h)
      · intro h
        exact absurd h hmem

/-- Claim C3: a node whose own file carries the client directive is always
classified client, never universal and never server, regardless of which
other nodes import it (stated for well-formed stores: unique keys, and each
node's filePath equal to its key). -/
theorem client_marked_never_demoted (nodes : NodeStore) (fp : String) (n : FileNode)
    (hnd : (nodes.map Prod.fst).Nodup) (hwf : ∀ e ∈ nodes, e.2.filePath = e.1)
    (hmem : (fp, n) ∈ nodes) (hc : n.isClient = true) :
    lookupKey (computeComponentTypes nodes) fp = some ComponentType.client := by
  have hentry : fp ∈ getClientEntries nodes := by
    unfold getClientEntries
    refine List.mem_map.mpr ⟨n, ?_, ?_⟩
    · exact List.mem_filter.mpr ⟨List.mem_map.mpr ⟨(fp, n), hmem, rfl⟩, hc⟩
    · exact hwf (fp, n) hmem
  have hreach : fp ∈ getClientReachable nodes (getClientEntries nodes) :=
    stack_subset_visitAll nodes _ [] fp hentry
  have hnotuni : fp ∉ computeUniversalSet nodes (collectImporters nodes)
      (initNodeTypes nodes (getClientReachable nodes (getClientEntries nodes))) := by
    intro hin
    rcases (mem_computeUniversalSet _ _ _ _).mp hin with ⟨n2, hmem2, hc2, _⟩
    have h1 := lookup_eq_of_mem_of_nodup hnd hmem
    have h2 := lookup_eq_of_mem_of_nodup hnd hmem2
    rw [h1] at h2
    injection h2 with h2
    rw [← h2, hc] at hc2
    simp at hc2
  have hcontains : (getClientReachable nodes (getClientEntries nodes)).contains fp = true := by
    simpa using hreach
  rw [computeComponentTypes_eq, lookupKey_universalFold, if_neg hnotuni,
    lookupKey_initNodeTypes, lookup_eq_of_mem_of_nodup hnd hmem]
  simp [hreach]

/-- Witness for C3 on a concrete store: the client-marked k.tsx, imported
only by the server file s.tsx, is classified client. -/
theorem client_marked_never_demoted_witness :
    ((clientLeafStore.map Prod.fst).Nodup ∧ (∀ e ∈ clientLeafStore, e.2.filePath = e.1) ∧
      ("k.tsx", ({ filePath := "k.tsx", isClient := true, imports := [] } : FileNode)) ∈
        clientLeafStore ∧
      ({ filePath := "k.tsx", isClient := true, imports := [] } : FileNode).isClient = true) ∧
    lookupKey (computeComponentTypes clientLeafStore) "k.tsx" = some ComponentType.client :=
  ⟨⟨by decide, by decide, by decide, by decide⟩,
    client_marked_never_demoted clientLeafStore "k.tsx"
      { filePath := "k.tsx", isClient := true, imports := [] }
      (by decide) (by decide) (by decide) (by decide)⟩

/-- Reading the store after the in-place baseline pass. -/
theorem lookupKey_setNodeTypes (store : NodeStore) (r : List String) (p : String) :
    lookupKey (setNodeTypes store r) p =
      (lookupKey store p).map
        (fun n => withType n
          (if r.contains p then ComponentType.client else ComponentType.server)) := by
  unfold setNodeTypes
  rw [lookupKey_map_keyed]
  unfold lookupKey
  cases hf : store.find? (fun pr => pr.1 == p) with
  | none => rfl
  | some pr =>
    have hkey := List.find?_some hf
    simp only [beq_iff_eq] at hkey
    simp [hkey]

/-- The type field written by the in-place baseline pass agrees with the
baseline typing map of the pure classifier. -/
theorem setNodeTypes_bind_type (store : NodeStore) (r : List String) (p : String) :
    (lookupKey (setNodeTypes store r) p).bind FileNode.type? =
      lookupKey (initNodeTypes store r) p := by
  rw [lookupKey_setNodeTypes, lookupKey_initNodeTypes]
  cases lookupKey store p <;> simp [withType]

/-- The importer index does not depend on the type fields, so collecting it
after the in-place baseline pass equals collecting it on the input store. -/
theorem collectImporters_setNodeTypes (store : NodeStore) (r : List String) :
    collectImporters (setNodeTypes store r) = collectImporters store := by
  unfold collectImporters setNodeTypes
  rw [List.foldl_map]
  rfl

/-- Retyping along the empty promoted list changes nothing. -/
theorem retype_nil (store : NodeStore) : retype store [] = store := by
  simp [retype]

/-- Reading the store after retyping a promoted list. -/
theorem lookupKey_retype (store : NodeStore) (P : List String) (p : String) :
    lookupKey (retype store P) p =
      (lookupKey store p).map
        (fun n => if p ∈ P then withType n ComponentType.universal else n) := by
  unfold retype
  rw [lookupKey_map_keyed]
  unfold lookupKey
  cases hf : store.find? (fun pr => pr.1 == p) with
  | none => rfl
  | some pr =>
    have hkey := List.find?_some hf
    simp only [beq_iff_eq] at hkey
    simp [hkey]

/-- Promoting one more key commutes with retyping. -/
theorem setTypeAt_retype (store : NodeStore) (P : List String) (fp : String) :
    setTypeAt (retype store P) fp ComponentType.universal = retype store (fp :: P) := by
  unfold setTypeAt retype
  rw [List.map_map]
  apply List.map_congr_left
  intro q _hq
  by_cases hqf : q.1 = fp
  · rw [← hqf]
    by_cases hqP : q.1 ∈ P <;> simp [hqP, withType]
  · by_cases hqP : q.1 ∈ P <;> simp [hqf, hqP, withType, List.mem_cons]

/-- If the in-place mixed-importers scan succeeds while every client (resp.
server) read of the live store is also a client (resp. server) entry of the
baseline typing, then the pure scan over the baseline typing succeeds too,
for any pair of pointwise weaker flag states. -/
theorem isUniversalTypeNodes_to_baseline (cur : NodeStore) (B : List (String × ComponentType))
    (hclient : ∀ i, (lookupKey cur i).bind FileNode.type? = some ComponentType.client →
      lookupKey B i = some ComponentType.client)
    (hserver : ∀ i, (lookupKey cur i).bind FileNode.type? = some ComponentType.server →
      lookupKey B i = some ComponentType.server) :
    ∀ (froms : List String) (hc hs hc2 hs2 : Bool),
      (hc = true → hc2 = true) → (hs = true → hs2 = true) →
      isUniversalTypeNodes cur froms hc hs = true →
      isUniversalType B froms hc2 hs2 = true := by
  intro froms
  induction froms with
  | nil =>
    intro hc hs hc2 hs2 _ _ h
    simp [isUniversalTypeNodes] at h
  | cons i rest ih =>
    intro hc hs hc2 hs2 hmc hms h
    simp only [isUniversalTypeNodes] at h
    simp only [isUniversalType]
    have hmc2 : (hc || ((lookupKey cur i).bind FileNode.type? == some ComponentType.client))
        = true →
        (hc2 || (lookupKey B i == some ComponentType.client)) = true := by
      intro hor
      rcases Bool.or_eq_true_iff.mp hor with h1 | h1
      · exact Bool.or_eq_true_iff.mpr (Or.inl (hmc h1))
      · exact Bool.or_eq_true_iff.mpr (Or.inr (by rw [hclient i (eq_of_beq h1)]; rfl))
    have hms2 : (hs || ((lookupKey cur i).bind FileNode.type? == some ComponentType.server))
        = true →
        (hs2 || (lookupKey B i == some ComponentType.server)) = true := by
      intro hor
      rcases Bool.or_eq_true_iff.mp hor with h1 | h1
      · exact Bool.or_eq_true_iff.mpr (Or.inl (hms h1))
      · exact Bool.or_eq_true_iff.mpr (Or.inr (by rw [hserver i (eq_of_beq h1)]; rfl))
    by_cases hcond :
        ((hc || ((lookupKey cur i).bind FileNode.type? == some ComponentType.client)) &&
          (hs || ((lookupKey cur i).bind FileNode.type? == some ComponentType.server))) = true
    · rcases Bool.and_eq_true_iff.mp hcond with ⟨h1, h2⟩
      have := Bool.and_eq_true_iff.mpr ⟨hmc2 h1, hms2 h2⟩
      rw [if_pos this]
    · rw [if_neg hcond] at h
      by_cases hcond2 :
          ((hc2 || (lookupKey B i == some ComponentType.client)) &&
            (hs2 || (lookupKey B i == some ComponentType.server))) = true
      · rw [if_pos hcond2]
      · rw [if_neg hcond2]
        have hmc3 : (hc || ((lookupKey cur i).bind FileNode.type? == some ComponentType.client))
            = true → (hc2 || (lookupKey B i == some ComponentType.client)) = true := hmc2
        exact ih _ _ _ _ hmc2 hms2 h

/-- Invariant of the in-place promotion pass: starting from the baseline
store with an already-promoted list drawn from the pure universal set, the
pass ends in the baseline store with some promoted list still drawn from the
pure universal set. -/
theorem setUniversalTypesGo_retype (st1 : NodeStore) (B : List (String × ComponentType))
    (importers : List (String × List String)) (uni : List String)
    (hbind : ∀ p, (lookupKey st1 p).bind FileNode.type? = lookupKey B p)
    (huni : ∀ fp node froms, lookupKey st1 fp = some node → node.isClient = false →
      lookupKey importers fp = some froms →
      isUniversalType B froms false false = true → fp ∈ uni) :
    ∀ (keyList P : List String), (∀ x ∈ P, x ∈ uni) →
      ∃ Q, (∀ x ∈ Q, x ∈ uni) ∧
        setUniversalTypesGo importers keyList (retype st1 P) = retype st1 Q := by
  intro keyList
  induction keyList with
  | nil =>
    intro P hP
    exact ⟨P, hP, rfl⟩
  | cons fp rest ih =>
    intro P hP
    have hreads : ∀ i, (lookupKey (retype st1 P) i).bind FileNode.type? =
        if i ∈ P ∧ (lookupKey st1 i).isSome then some ComponentType.universal
        else lookupKey B i := by
      intro i
      rw [lookupKey_retype]
      cases hl : lookupKey st1 i with
      | none =>
        have : lookupKey B i = none := by rw [← hbind i, hl]; rfl
        simp [this]
      | some m =>
        by_cases hiP : i ∈ P
        · simp [hiP, hl, withType]
        · have : (some m).bind FileNode.type? = lookupKey B i := by rw [← hbind i, hl]
          simp only [hiP, false_and, if_false, Option.map_some]
          rw [← this]
          simp [hiP]
    have hclientRead : ∀ i,
        (lookupKey (retype st1 P) i).bind FileNode.type? = some ComponentType.client →
        lookupKey B i = some ComponentType.client := by
      intro i hi
      rw [hreads i] at hi
      by_cases hcase : i ∈ P ∧ (lookupKey st1 i).isSome
      · rw [if_pos hcase] at hi
        exact absurd hi (by simp)
      · rwa [if_neg hcase] at hi
    have hserverRead : ∀ i,
        (lookupKey (retype st1 P) i).bind FileNode.type? = some ComponentType.server →
        lookupKey B i = some ComponentType.server := by
      intro i hi
      rw [hreads i] at hi
      by_cases hcase : i ∈ P ∧ (lookupKey st1 i).isSome
      · rw [if_pos hcase] at hi
        exact absurd hi (by simp)
      · rwa [if_neg hcase] at hi
    cases hl : lookupKey st1 fp with
    | none =>
      have hlr : lookupKey (retype st1 P) fp = none := by
        rw [lookupKey_retype, hl]
        rfl
      have hstep : setUniversalTypesGo importers (fp :: rest) (retype st1 P) =
          setUniversalTypesGo importers rest (retype st1 P) := by
        rw [setUniversalTypesGo, hlr]
      rw [hstep]
      exact ih P hP
    | some node0 =>
      have hlr : lookupKey (retype st1 P) fp =
          some (if fp ∈ P then withType node0 ComponentType.universal else node0) := by
        rw [lookupKey_retype, hl]
        rfl
      have hisc : (if fp ∈ P then withType node0 ComponentType.universal else node0).isClient =
          node0.isClient := by
        by_cases hfp : fp ∈ P <;> simp [hfp, withType]
      by_cases hc : node0.isClient = true
      · have hstep : setUniversalTypesGo importers (fp :: rest) (retype st1 P) =
            setUniversalTypesGo importers rest (retype st1 P) := by
          rw [setUniversalTypesGo, hlr]
          simp only [hisc, hc, if_pos]
        rw [hstep]
        exact ih P hP
      · simp only [Bool.not_eq_true] at hc
        cases himp : lookupKey importers fp with
        | none =>
          have hstep : setUniversalTypesGo importers (fp :: rest) (retype st1 P) =
              setUniversalTypesGo importers rest (retype st1 P) := by
            rw [setUniversalTypesGo, hlr]
            simp only [hisc, hc, Bool.false_eq_true, if_false, himp]
          rw [hstep]
          exact ih P hP
        | some froms =>
          cases hd : isUniversalTypeNodes (retype st1 P) froms false false with
          | false =>
            have hstep : setUniversalTypesGo importers (fp :: rest) (retype st1 P) =
                setUniversalTypesGo importers rest (retype st1 P) := by
              rw [setUniversalTypesGo, hlr]
              simp only [hisc, hc, Bool.false_eq_true, if_false, himp, hd]
            rw [hstep]
            exact ih P hP
          | true =>
            have hstep : setUniversalTypesGo importers (fp :: rest) (retype st1 P) =
                setUniversalTypesGo importers rest (retype st1 (fp :: P)) := by
              rw [setUniversalTypesGo, hlr]
              simp only [hisc, hc, Bool.false_eq_true, if_false, himp, hd, if_pos]
              rw [setTypeAt_retype]
            rw [hstep]
            have hbase : isUniversalType B froms false false = true :=
              isUniversalTypeNodes_to_baseline (retype st1 P) B hclientRead hserverRead
                froms false false false false (fun h => h) (fun h => h) hd
            have hfpuni : fp ∈ uni := huni fp node0 froms hl hc himp hbase
            exact ih (fp :: P) (by
              intro x hx
              rcases List.mem_cons.mp hx with he | hxP
              · exact he ▸ hfpuni
              · exact hP x hxP)

/-- Claim C10 (amended): on every node whose pure classification is not universal,
the historical in-place classifyComponentTypes and the pure
computeComponentTypes agree; consequently the in-place pass can only promote
nodes that the pure classifier also promotes, and the two can differ only on
nodes the pure classifier types universal. -/
theorem inplace_matches_pure_off_universal (store : NodeStore) (fp : String)
    (h : lookupKey (computeComponentTypes store) fp ≠ some ComponentType.universal) :
    (lookupKey (classifyComponentTypes store) fp).bind FileNode.type? =
      lookupKey (computeComponentTypes store) fp := by
  set r := getClientReachable store (getClientEntries store) with hrdef
  set B := initNodeTypes store r with hBdef
  set st1 := setNodeTypes store r with hst1def
  set uni := computeUniversalSet store (collectImporters store) B with hunidef
  have hbind : ∀ p, (lookupKey st1 p).bind FileNode.type? = lookupKey B p := by
    intro p
    rw [hst1def, hBdef]
    exact setNodeTypes_bind_type store r p
  have huniArg : ∀ fp2 node froms, lookupKey st1 fp2 = some node →
      node.isClient = false →
      lookupKey (collectImporters st1) fp2 = some froms →
      isUniversalType B froms false false = true → fp2 ∈ uni := by
    intro fp2 node froms hlook hcl himp hbase
    rw [hst1def, lookupKey_setNodeTypes] at hlook
    cases hl0 : lookupKey store fp2 with
    | none =>
      rw [hl0] at hlook
      exact absurd hlook (by simp)
    | some n0 =>
      rw [hl0] at hlook
      simp only [Option.map_some'] at hlook
      rw [hst1def, collectImporters_setNodeTypes] at himp
      have hcl0 : n0.isClient = false := by
        have := congrArg FileNode.isClient (Option.some.inj hlook)
        rw [← this] at hcl
        simpa [withType] using hcl
      rw [hunidef]
      exact (mem_computeUniversalSet _ _ _ _).mpr
        ⟨n0, mem_of_lookup_some hl0, hcl0, froms, himp, hbase⟩
  obtain ⟨Q, hQ, heq⟩ := setUniversalTypesGo_retype st1 B (collectImporters st1) uni
    hbind huniArg (st1.map Prod.fst) [] (by intro x hx; simp at hx)
  rw [retype_nil] at heq
  have hclass : classifyComponentTypes store = retype st1 Q := by
    rw [classifyComponentTypes_eq]
    unfold setUniversalTypes
    exact heq
  have hnotuni : fp ∉ uni := by
    intro hin
    apply h
    rw [computeComponentTypes_eq, lookupKey_universalFold]
    rw [← hrdef, ← hBdef, ← hunidef]
    rw [if_pos hin]
  have hnotQ : fp ∉ Q := fun hq => hnotuni (hQ fp hq)
  rw [hclass, lookupKey_retype]
  rw [computeComponentTypes_eq, lookupKey_universalFold, ← hrdef, ← hBdef, ← hunidef,
    if_neg hnotuni]
  have hmap : ((lookupKey st1 fp).map
      (fun n => if fp ∈ Q then withType n ComponentType.universal else n)).bind
        FileNode.type? = (lookupKey st1 fp).bind FileNode.type? := by
    cases lookupKey st1 fp <;> simp [hnotQ]
  rw [hmap, hbind fp]

/-- Witness for the amended C10 on the concrete cycle store: the pure
classifier types a.tsx server (not universal), and the in-place classifier
records the same type. -/
theorem inplace_matches_pure_off_universal_witness :
    lookupKey (computeComponentTypes cycleStore) "a.tsx" ≠ some ComponentType.universal ∧
    (lookupKey (classifyComponentTypes cycleStore) "a.tsx").bind FileNode.type? =
      lookupKey (computeComponentTypes cycleStore) "a.tsx" := by
  have hreach : getClientReachable cycleStore (getClientEntries cycleStore) = [] := by
    simp [getClientReachable, getClientEntries, cycleStore, visitAll]
  have hhyp : lookupKey (computeComponentTypes cycleStore) "a.tsx" ≠
      some ComponentType.universal := by
    rw [computeComponentTypes_eq, hreach]
    decide
  exact ⟨hhyp, inplace_matches_pure_off_universal cycleStore "a.tsx" hhyp⟩

/-- Claim C10 (counterexample to the claim as stated): on the concrete five-node
store, the pure classifier types t.tsx universal while the in-place variants
leave it at client, because the importer x.tsx was already promoted to
universal earlier in the same pass and no longer counts as a client-typed
importer. -/
theorem inplace_pure_divergence :
    lookupKey (computeComponentTypes promotionChainStore) "t.tsx" =
      some ComponentType.universal ∧
    (lookupKey (classifyComponentTypes promotionChainStore) "t.tsx").bind FileNode.type? =
      some ComponentType.client := by
  have hreach : getClientReachable promotionChainStore (getClientEntries promotionChainStore) =
      ["t.tsx", "x.tsx", "c.tsx"] := by
    simp [getClientReachable, getClientEntries, promotionChainStore, visitAll, succsOf,
      lookupKey, hasKey, List.find?]
  constructor
  · rw [computeComponentTypes_eq, hreach]
    decide
  · rw [classifyComponentTypes_eq, hreach]
    decide

/-- Map.has after Map.delete. -/
theorem hasKey_deleteKey {α : Type} (m : List (String × α)) (k p : String) :
    hasKey (deleteKey m k) p = if p = k then false else hasKey m p := by
  unfold hasKey
  rw [lookupKey_deleteKey]
  by_cases hpk : p = k <;> simp [hpk]

/-- After the deletion pass, a path that no longer exists on disk is no
longer registered in the project, whether or not it was registered before. -/
theorem removeDeleted_not_has (fs : FileSystem) (st : EngineState) (p : String)
    (hgone : lookupKey fs p = none) :
    hasKey (removeDeletedFiles fs st).projectFiles p = false := by
  have hfsp : hasKey fs p = false := by
    unfold hasKey
    rw [hgone]
    rfl
  have hM : ∀ (l : List (String × SrcContent)) (acc : EngineState),
      hasKey acc.projectFiles p = false →
      hasKey ((l.foldl (fun acc sf =>
        if hasKey fs sf.1 then acc
        else { nodes := deleteKey acc.nodes sf.1,
               projectFiles := deleteKey acc.projectFiles sf.1 }) acc)).projectFiles p =
        false := by
    intro l
    induction l with
    | nil => intro acc h; exact h
    | cons sf rest ih =>
      intro acc h
      simp only [List.foldl_cons]
      by_cases hk : hasKey fs sf.1 = true
      · rw [if_pos hk]
        exact ih acc h
      · rw [if_neg hk]
        apply ih
        rw [hasKey_deleteKey]
        by_cases hps : p = sf.1
        · simp [hps]
        · rw [if_neg hps]
          exact h
  have hD : ∀ (l : List (String × SrcContent)) (acc : EngineState),
      p ∈ l.map Prod.fst →
      hasKey ((l.foldl (fun acc sf =>
        if hasKey fs sf.1 then acc
        else { nodes := deleteKey acc.nodes sf.1,
               projectFiles := deleteKey acc.projectFiles sf.1 }) acc)).projectFiles p =
        false := by
    intro l
    induction l with
    | nil =>
      intro acc h
      simp at h
    | cons sf rest ih =>
      intro acc hmem
      simp only [List.foldl_cons]
      simp only [List.map_cons, List.mem_cons] at hmem
      rcases hmem with he | hrest
      · have hk : ¬hasKey fs sf.1 = true := by
          rw [← he, hfsp]
          simp
        rw [if_neg hk]
        apply hM
        rw [hasKey_deleteKey, ← he]
        simp
      · by_cases hk : hasKey fs sf.1 = true
        · rw [if_pos hk]
          exact ih acc hrest
        · rw [if_neg hk]
          exact ih _ hrest
  unfold removeDeletedFiles
  by_cases hhas : hasKey st.projectFiles p = true
  · have hpmem : p ∈ st.projectFiles.map Prod.fst := by
      unfold hasKey at hhas
      cases hl : lookupKey st.projectFiles p with
      | none =>
        rw [hl] at hhas
        simp at hhas
      | some v => exact mem_keys_of_lookup_some hl
    exact hD st.projectFiles st hpmem
  · simp only [Bool.not_eq_true] at hhas
    exact hM st.projectFiles st hhas

/-- Applying types never resurrects a deleted key. -/
theorem lookupKey_applyTypes_none {nodes : NodeStore}
    {types : List (String × ComponentType)} {p : String}
    (h : lookupKey nodes p = none) : lookupKey (applyTypes nodes types) p = none := by
  unfold applyTypes
  rw [lookupKey_map_keyed]
  have hf : nodes.find? (fun pr => pr.1 == p) = none := by
    cases hf : nodes.find? (fun pr => pr.1 == p) with
    | none => rfl
    | some pr => simp [lookupKey, hf] at h
  rw [hf]
  rfl

/-- Claim C6 (counterexample to the claim as stated): in a full-scan build
(the branch of build that completes), the single deletion pass runs before
the project additions, not after additions/refreshes as claimed. -/
theorem deletion_pass_not_after_additions :
    (build [] noExclusions none (initialEngine [])).trace.count
        BuildEvent.deletionPass = 1 ∧
    refreshAfterDeletion (build [] noExclusions none (initialEngine [])).trace = true := by
  constructor
  · decide
  · decide

/-- Claim C6 (amended): in every build call the deletion pass runs exactly
once and is the very first phase, before any additions or refreshes; in
full-scan mode, the branch that completes, node content is then recomputed
after it, while a non-empty incremental call throws during the refresh step
(see C8) and never reaches node recomputation. -/
theorem deletion_pass_once_first (fs : FileSystem) (excludes : String → Bool)
    (changed : Option (List String)) (st : EngineState) :
    (build fs excludes changed st).trace.count BuildEvent.deletionPass = 1 ∧
    deletionPassFirst (build fs excludes changed st).trace = true ∧
    BuildEvent.updateNodesPhase ∈ (build fs excludes none st).trace := by
  have htrFull : (build fs excludes none st).trace =
      [BuildEvent.deletionPass, BuildEvent.addAllPhase, BuildEvent.markAffectedPhase,
       BuildEvent.updateNodesPhase, BuildEvent.classifyPhase, BuildEvent.firePhase] := rfl
  rcases changed with _ | l
  · rw [htrFull]
    exact ⟨by decide, by decide, by simp⟩
  · rcases l with _ | ⟨c, cs⟩
    · have htr : (build fs excludes (some []) st).trace =
          [BuildEvent.deletionPass, BuildEvent.addAllPhase, BuildEvent.markAffectedPhase,
           BuildEvent.updateNodesPhase, BuildEvent.classifyPhase, BuildEvent.firePhase] := rfl
      rw [htr, htrFull]
      exact ⟨by decide, by decide, by simp⟩
    · have htr : (build fs excludes (some (c :: cs)) st).trace =
          [BuildEvent.deletionPass] := rfl
      rw [htr, htrFull]
      exact ⟨by decide, by decide, by simp⟩

/-- Claim C7 (evaluation at the failing input): a file matching an exclusion
pattern that exists at construction time (loaded into the project from the
tsconfig) becomes a node key on the next full-scan build, because
updateFileNodes no longer filters excluded paths and markAllFilesAsAffected
marks every registered file. -/
theorem excluded_file_becomes_node_on_full_scan :
    hasKey (build storiesFs storiesExcluded none (initialEngine storiesFs)).state.nodes
      "a.stories.tsx" = true := by
  decide

/-- Claim C8 (evaluation at the failing input): for a previously tracked
path that was removed from disk and is passed as the single changed path,
the build throws the TypeError raised by calling test on the function value
that index.ts hands to refreshChangedFiles, before the path is added to the
affected set; the failure is an escaped exception rather than a silent skip,
the refresh phase never completes, and only the deletion pass (which had
already evicted the stale node) has run at the throw. -/
theorem incremental_build_throws_typeerror :
    (build [] noExclusions (some ["p.tsx"]) trackedEngine).thrown =
      some "TypeError: excludes.test is not a function" ∧
    (build [] noExclusions (some ["p.tsx"]) trackedEngine).affected = [] ∧
    (build [] noExclusions (some ["p.tsx"]) trackedEngine).trace =
      [BuildEvent.deletionPass] ∧
    hasKey (build [] noExclusions (some ["p.tsx"]) trackedEngine).state.nodes "p.tsx" =
      false := by
  refine ⟨by decide, by decide, by decide, by decide⟩

/-- Claim C9 (counterexample to the claim as stated): with a first listener that
throws and a second that returns normally, the exception propagates out of
the notification (and hence out of build), and the second listener is never
invoked, so listener failures are neither contained nor isolated. -/
theorem listener_exception_propagates :
    (buildAndNotify [] noExclusions none (initialEngine [])
        [Except.error "boom", Except.ok ()]).2 = ([0], some "boom") := by
  decide

/-- Claim C9 (amended): the engine state produced by build is unaffected by the
listeners, because the graph update completes before the notification fires;
but a listener exception is not isolated: the first throwing listener aborts
the remaining listeners and its exception escapes to the caller of build. -/
theorem listener_exception_behavior (fs : FileSystem) (excludes : String → Bool)
    (changed : Option (List String)) (st : EngineState)
    (okListeners suffixListeners : List Listener) (e : String)
    (hok : ∀ l ∈ okListeners, l = Except.ok ()) :
    (buildAndNotify fs excludes changed st
        (okListeners ++ Except.error e :: suffixListeners)).1 =
      build fs excludes changed st ∧
    (buildAndNotify fs excludes changed st
        (okListeners ++ Except.error e :: suffixListeners)).2 =
      (List.range (okListeners.length + 1), some e) := by
  refine ⟨rfl, ?_⟩
  show emitUpdate (okListeners ++ Except.error e :: suffixListeners) = _
  unfold emitUpdate
  have hgen : ∀ (pre : List Listener) (i : Nat), (∀ l ∈ pre, l = Except.ok ()) →
      emitUpdateGo (pre ++ Except.error e :: suffixListeners) i =
        (List.range' i (pre.length + 1), some e) := by
    intro pre
    induction pre with
    | nil =>
      intro i _
      simp [emitUpdateGo, List.range']
    | cons l rest ih =>
      intro i hok2
      have hl : l = Except.ok () := hok2 l (List.mem_cons_self l rest)
      subst hl
      rw [List.cons_append, emitUpdateGo]
      rw [ih (i + 1) (fun x hx => hok2 x (List.mem_cons_of_mem _ hx))]
      simp [List.range']
  rw [hgen okListeners 0 hok, List.range_eq_range']

/-- Witness for the amended C9: one well-behaved listener followed by a
throwing one; the state equals the listener-free build, the error escapes,
and exactly the first two listeners ran. -/
theorem listener_exception_behavior_witness :
    (∀ l ∈ ([Except.ok ()] : List Listener), l = Except.ok ()) ∧
    ((buildAndNotify [] noExclusions none (initialEngine [])
        ([Except.ok ()] ++ Except.error "late" :: [Except.ok ()])).1 =
      build [] noExclusions none (initialEngine []) ∧
     (buildAndNotify [] noExclusions none (initialEngine [])
        ([Except.ok ()] ++ Except.error "late" :: [Except.ok ()])).2 =
      (List.range (([Except.ok ()] : List Listener).length + 1), some "late")) :=
  ⟨fun l hl => by simpa using hl,
    listener_exception_behavior [] noExclusions none (initialEngine [])
      [Except.ok ()] [Except.ok ()] "late" (fun l hl => by simpa using hl)⟩

end ComponentEnvGraph
